import Mathlib

/-!
Verification of the ingredients-prediction service.

This file gives a shallow embedding of the two modules the specification's
claims concern:

* `app/services/cache.py`: `CacheEntry`, `InMemoryCache` (an LRU cache with
  TTL support) and `CacheService.generate_recipe_key`.
* `app/services/gemini.py`: `GeminiService._parse_response`, the resilient
  JSON decoder, together with a model of Python's `json.loads` restricted to
  integer numerals and the simple string escapes (no `\uXXXX`, no floats,
  no `NaN`/`Infinity`); the claims under study only involve texts inside
  that fragment.

Python `datetime` instants are modelled as integers (seconds); `Any` cache
values are modelled by a type parameter; Python `dict`s are modelled as
association lists in insertion order (assignment to an existing key keeps
its position, as CPython dicts do).
-/

namespace IngredientsPrediction

/-! Model of `app/services/cache.py`. -/

/-- Model of `CacheEntry`: a stored value plus creation instant and optional
expiry instant.  Mirrors `CacheEntry.__init__`: `expires_at` is
`created_at + ttl_seconds` when `ttl_seconds` is truthy (not `None` and
nonzero), else `None`. -/
structure CacheEntry (α : Type) where
  value : α
  created_at : Int
  expires_at : Option Int
deriving DecidableEq, Repr

/-- Model of the `CacheEntry` constructor: Python's `if ttl_seconds` is falsy
both for `None` and for `0`. -/
def CacheEntry.make {α : Type} (value : α) (ttl_seconds : Option Int)
    (now : Int) : CacheEntry α :=
  { value := value
    created_at := now
    expires_at :=
      match ttl_seconds with
      | some t => if t = 0 then none else some (now + t)
      | none => none }

/-- Model of `CacheEntry.is_expired` at clock instant `now`:
`datetime.utcnow() > self.expires_at` when an expiry is set. -/
def CacheEntry.isExpired {α : Type} (e : CacheEntry α) (now : Int) : Bool :=
  match e.expires_at with
  | none => false
  | some t => decide (t < now)

/-- Keys of an association-list dictionary. -/
def keysOf {β : Type} (d : List (String × β)) : List String :=
  d.map Prod.fst

/-- Model of Python `dict` lookup `d.get(k)`: first binding wins (CPython
dicts have unique keys; on such lists this is the binding). -/
def dictGet {β : Type} (d : List (String × β)) (k : String) : Option β :=
  match d with
  | [] => none
  | (k', v) :: rest => if k' = k then some v else dictGet rest k

/-- Model of Python `dict` assignment `d[k] = v`: if the key is present its
binding is updated in place (CPython keeps the original insertion position),
otherwise the pair is appended. -/
def dictSet {β : Type} (d : List (String × β)) (k : String) (v : β) :
    List (String × β) :=
  match d with
  | [] => [(k, v)]
  | (k', w) :: rest => if k' = k then (k, v) :: rest else (k', w) :: dictSet rest k v

/-- Model of Python `del d[k]` (which removes the unique binding of `k`). -/
def dictDel {β : Type} (d : List (String × β)) (k : String) :
    List (String × β) :=
  match d with
  | [] => []
  | (k', w) :: rest => if k' = k then dictDel rest k else (k', w) :: dictDel rest k

/-- Model of the `InMemoryCache` object state: the entry dictionary, the
configured bounds and the LRU recency list `_access_order` (least recently
used first). -/
structure InMemoryCache (α : Type) where
  cache : List (String × CacheEntry α)
  max_size : Nat
  default_ttl : Int
  access_order : List String
deriving DecidableEq, Repr

/-- Model of `InMemoryCache.__init__`. -/
def InMemoryCache.init (α : Type) (max_size : Nat) (default_ttl : Int) :
    InMemoryCache α :=
  { cache := [], max_size := max_size, default_ttl := default_ttl
    access_order := [] }

/-- Model of `InMemoryCache.get` at clock instant `now`: returns the value
(or `none`) together with the updated cache state.  An expired entry is
deleted; a hit moves the key to the most-recent end of `_access_order`. -/
def InMemoryCache.get {α : Type} (s : InMemoryCache α) (key : String)
    (now : Int) : Option α × InMemoryCache α :=
  match dictGet s.cache key with
  | none => (none, s)
  | some e =>
    if e.isExpired now then
      (none, { s with cache := dictDel s.cache key
                      access_order := s.access_order.erase key })
    else
      (some e.value,
       { s with access_order := s.access_order.erase key ++ [key] })

/-- Model of the eviction `while` loop in `InMemoryCache.set`: while the
dictionary holds at least `max_size` entries and the recency list is
nonempty, pop the least recently used key and delete it if present
(`dictDel` is a no-op on an absent key, like the guarded `del`). -/
def evictLoop {α : Type} (max_size : Nat) :
    List (String × CacheEntry α) → List String →
    List (String × CacheEntry α) × List String
  | c, [] => (c, [])
  | c, k :: rest =>
    if max_size ≤ c.length then evictLoop max_size (dictDel c k) rest
    else (c, k :: rest)

/-- Model of `InMemoryCache.set` at clock instant `now`: evict while at
capacity, build the entry with `ttl` defaulting to `default_ttl`, store it
and mark the key most recently used. -/
def InMemoryCache.set {α : Type} (s : InMemoryCache α) (key : String)
    (value : α) (ttl : Option Int) (now : Int) : InMemoryCache α :=
  let (c, o) := evictLoop s.max_size s.cache s.access_order
  let effective_ttl := ttl.getD s.default_ttl
  { s with cache := dictSet c key (CacheEntry.make value (some effective_ttl) now)
           access_order := o.erase key ++ [key] }

/-- Model of `InMemoryCache.delete`: returns whether the key was present and
the updated state. -/
def InMemoryCache.del {α : Type} (s : InMemoryCache α) (key : String) :
    Bool × InMemoryCache α :=
  if (dictGet s.cache key).isSome then
    (true, { s with cache := dictDel s.cache key
                    access_order := s.access_order.erase key })
  else (false, s)

/-- Model of `InMemoryCache.clear`. -/
def InMemoryCache.clearAll {α : Type} (s : InMemoryCache α) : InMemoryCache α :=
  { s with cache := [], access_order := [] }

/-- Model of the purge pass of `InMemoryCache.size` at instant `now`: every
expired entry is deleted from the dictionary and removed (first occurrence)
from the recency list. -/
def InMemoryCache.purge {α : Type} (s : InMemoryCache α) (now : Int) :
    InMemoryCache α :=
  let expired := (s.cache.filter (fun p => p.2.isExpired now)).map Prod.fst
  { s with cache := expired.foldl dictDel s.cache
           access_order := expired.foldl List.erase s.access_order }

/-- Model of `InMemoryCache.size`: the count after purging expired entries. -/
def InMemoryCache.size {α : Type} (s : InMemoryCache α) (now : Int) :
    Nat × InMemoryCache α :=
  let s' := s.purge now
  (s'.cache.length, s')

/-- One cache operation of the public interface, tagged with the clock
instant at which it runs (the model of `datetime.utcnow()`). -/
inductive CacheOp (α : Type) where
  | get (key : String) (now : Int)
  | set (key : String) (value : α) (ttl : Option Int) (now : Int)
  | del (key : String)
  | clear
  | size (now : Int)
deriving DecidableEq, Repr

/-- State transition of a single cache operation (result values dropped). -/
def CacheOp.apply {α : Type} (s : InMemoryCache α) : CacheOp α → InMemoryCache α
  | .get key now => (s.get key now).2
  | .set key value ttl now => s.set key value ttl now
  | .del key => (s.del key).2
  | .clear => s.clearAll
  | .size now => (s.size now).2

/-- Run a sequence of operations from a freshly constructed cache. -/
def runOps (α : Type) (max_size : Nat) (default_ttl : Int)
    (ops : List (CacheOp α)) : InMemoryCache α :=
  ops.foldl CacheOp.apply (InMemoryCache.init α max_size default_ttl)

/-! Model of `CacheService.generate_recipe_key`. -/

/-- The whitespace characters stripped by Python `str.strip()` (ASCII part:
space, tab, newline, carriage return, vertical tab, form feed). -/
def isPyWs (c : Char) : Bool :=
  c = ' ' ∨ c = '\t' ∨ c = '\n' ∨ c = '\r' ∨ c = '\x0b' ∨ c = '\x0c'

/-- Model of Python `str.lower()` on one character (ASCII range; the claims
only vary ASCII case). -/
def pyLowerChar (c : Char) : Char :=
  if 'A' ≤ c ∧ c ≤ 'Z' then Char.ofNat (c.toNat + 32) else c

/-- Model of Python `str.strip()` on a character list. -/
def pyStripL (l : List Char) : List Char :=
  ((l.dropWhile isPyWs).reverse.dropWhile isPyWs).reverse

/-- Model of `dish_name.lower().strip()`. -/
def normalizeName (s : String) : List Char :=
  pyStripL (s.data.map pyLowerChar)

/-- Python code-point-lexicographic `<` on strings (what `sorted` uses). -/
def pyStrLt : List Char → List Char → Bool
  | _, [] => false
  | [], _ :: _ => true
  | a :: as, b :: bs =>
    decide (a.toNat < b.toNat) || (a = b && pyStrLt as bs)

/-- Insert into a sorted list, keeping ascending code-point order. -/
def sortedInsert (x : String) : List String → List String
  | [] => [x]
  | y :: ys => if pyStrLt y.data x.data then y :: sortedInsert x ys
               else x :: y :: ys

/-- Model of Python `sorted` on a list of strings (insertion sort; `sorted`
is a comparison sort over the total code-point order, so the result list is
the same). -/
def pySorted : List String → List String
  | [] => []
  | x :: xs => sortedInsert x (pySorted xs)

/-- Model of `"_".join(sorted(dietary_restrictions)) if dietary_restrictions
else ""`: Python's truthiness makes both `None` and `[]` yield `""`. -/
def dietaryStr (dietary_restrictions : Option (List String)) : String :=
  match dietary_restrictions with
  | none => ""
  | some l => if l.isEmpty then "" else "_".intercalate (pySorted l)

/-- The f-string `f"{dish_name.lower().strip()}_{servings}_{dietary_str}"`. -/
def recipeKeyString (dish_name : String) (servings : Int)
    (dietary_restrictions : Option (List String)) : String :=
  String.mk (normalizeName dish_name) ++ "_" ++ toString servings ++ "_" ++
    dietaryStr dietary_restrictions

/-! The MD5 digest (RFC 1321), used by `hashlib.md5(...).hexdigest()`. -/

/-- The 64 MD5 sine-derived round constants. -/
def md5K : List Nat :=
  [0xd76aa478, 0xe8c7b756, 0x242070db, 0xc1bdceee,
   0xf57c0faf, 0x4787c62a, 0xa8304613, 0xfd469501,
   0x698098d8, 0x8b44f7af, 0xffff5bb1, 0x895cd7be,
   0x6b901122, 0xfd987193, 0xa679438e, 0x49b40821,
   0xf61e2562, 0xc040b340, 0x265e5a51, 0xe9b6c7aa,
   0xd62f105d, 0x02441453, 0xd8a1e681, 0xe7d3fbc8,
   0x21e1cde6, 0xc33707d6, 0xf4d50d87, 0x455a14ed,
   0xa9e3e905, 0xfcefa3f8, 0x676f02d9, 0x8d2a4c8a,
   0xfffa3942, 0x8771f681, 0x6d9d6122, 0xfde5380c,
   0xa4beea44, 0x4bdecfa9, 0xf6bb4b60, 0xbebfbc70,
   0x289b7ec6, 0xeaa127fa, 0xd4ef3085, 0x04881d05,
   0xd9d4d039, 0xe6db99e5, 0x1fa27cf8, 0xc4ac5665,
   0xf4292244, 0x432aff97, 0xab9423a7, 0xfc93a039,
   0x655b59c3, 0x8f0ccc92, 0xffeff47d, 0x85845dd1,
   0x6fa87e4f, 0xfe2ce6e0, 0xa3014314, 0x4e0811a1,
   0xf7537e82, 0xbd3af235, 0x2ad7d2bb, 0xeb86d391]

/-- The 64 MD5 per-round left-rotation amounts. -/
def md5S : List Nat :=
  [7, 12, 17, 22, 7, 12, 17, 22, 7, 12, 17, 22, 7, 12, 17, 22,
   5, 9, 14, 20, 5, 9, 14, 20, 5, 9, 14, 20, 5, 9, 14, 20,
   4, 11, 16, 23, 4, 11, 16, 23, 4, 11, 16, 23, 4, 11, 16, 23,
   6, 10, 15, 21, 6, 10, 15, 21, 6, 10, 15, 21, 6, 10, 15, 21]

/-- Left rotation of a 32-bit value (an integer below `2^32`). -/
def rotl32 (x n : Nat) : Nat :=
  ((x <<< n) ||| (x >>> (32 - n))) % 4294967296

/-- Pad a byte string per MD5: append `0x80`, zero-fill to 56 mod 64, then
the original bit length as 8 little-endian bytes. -/
def md5Pad (msg : List Nat) : List Nat :=
  let n := msg.length
  let zeros := (119 - n % 64) % 64
  let bitLen := (n * 8) % 18446744073709551616
  msg ++ [0x80] ++ List.replicate zeros 0 ++
    ((List.range 8).map (fun i => (bitLen >>> (8 * i)) % 256))

/-- Decode a 64-byte block into 16 little-endian 32-bit words. -/
def md5Words (block : List Nat) : List Nat :=
  (List.range 16).map (fun i =>
    block.getD (4 * i) 0 + block.getD (4 * i + 1) 0 * 256 +
    block.getD (4 * i + 2) 0 * 65536 + block.getD (4 * i + 3) 0 * 16777216)

/-- One MD5 round step `i` on the running state `(A, B, C, D)`. -/
def md5Step (M : List Nat) (st : Nat × Nat × Nat × Nat) (i : Nat) :
    Nat × Nat × Nat × Nat :=
  let (a, b, c, d) := st
  let fg : Nat × Nat :=
    if i < 16 then ((b &&& c) ||| ((b ^^^ 4294967295) &&& d), i)
    else if i < 32 then ((d &&& b) ||| ((d ^^^ 4294967295) &&& c), (5 * i + 1) % 16)
    else if i < 48 then (b ^^^ c ^^^ d, (3 * i + 5) % 16)
    else (c ^^^ (b ||| (d ^^^ 4294967295)), (7 * i) % 16)
  let f := (fg.1 + a + md5K.getD i 0 + M.getD fg.2 0) % 4294967296
  (d, (b + rotl32 f (md5S.getD i 0)) % 4294967296, b, c)

/-- Compress one 64-byte block into the chaining state. -/
def md5Block (st : Nat × Nat × Nat × Nat) (block : List Nat) :
    Nat × Nat × Nat × Nat :=
  let M := md5Words block
  let (a, b, c, d) := (List.range 64).foldl (md5Step M) st
  ((st.1 + a) % 4294967296, (st.2.1 + b) % 4294967296,
   (st.2.2.1 + c) % 4294967296, (st.2.2.2 + d) % 4294967296)

/-- Fold the padded message 64 bytes at a time (fuel-structural recursion so
that the definition computes by `rfl`). -/
def md5Blocks : Nat → (Nat × Nat × Nat × Nat) → List Nat →
    Nat × Nat × Nat × Nat
  | 0, st, _ => st
  | _ + 1, st, [] => st
  | fuel + 1, st, bytes => md5Blocks fuel (md5Block st (bytes.take 64)) (bytes.drop 64)

/-- Lowercase hexadecimal digit. -/
def hexChar (n : Nat) : Char :=
  if n < 10 then Char.ofNat (48 + n) else Char.ofNat (87 + n)

/-- Render one 32-bit word as 8 hex characters, little-endian byte order. -/
def word32ToHex (x : Nat) : List Char :=
  ((List.range 4).map (fun i => (x >>> (8 * i)) % 256)).flatMap
    (fun b => [hexChar (b / 16), hexChar (b % 16)])

/-- MD5 hex digest of a byte string. -/
def md5HexBytes (msg : List Nat) : String :=
  let fuel := msg.length / 64 + 2
  let (a, b, c, d) :=
    md5Blocks fuel (0x67452301, 0xefcdab89, 0x98badcfe, 0x10325476) (md5Pad msg)
  String.mk (word32ToHex a ++ word32ToHex b ++ word32ToHex c ++ word32ToHex d)

/-- Model of `hashlib.md5(key_string.encode()).hexdigest()` (UTF-8 bytes). -/
def md5Hex (s : String) : String :=
  md5HexBytes (s.toUTF8.toList.map UInt8.toNat)

/-- Model of `CacheService.generate_recipe_key`. -/
def generate_recipe_key (dish_name : String) (servings : Int)
    (dietary_restrictions : Option (List String)) : String :=
  md5Hex (recipeKeyString dish_name servings dietary_restrictions)

/-! Model of `json.loads`.

Restricted to the JSON fragment the claims involve: integer numerals
(no fractions, exponents, `NaN` or `Infinity`) and the simple string
escapes (no `\uXXXX`).  Objects become key/value lists in CPython `dict`
insertion order, a duplicate key overwriting in place. -/

/-- A parsed JSON value. -/
inductive Json where
  | null
  | bool (b : Bool)
  | int (n : Int)
  | str (s : String)
  | arr (elems : List Json)
  | obj (members : List (String × Json))

/-- The whitespace accepted between JSON tokens (RFC 8259 / `json.loads`). -/
def isJsonWs (c : Char) : Bool :=
  c = ' ' ∨ c = '\t' ∨ c = '\n' ∨ c = '\r'

/-- Skip inter-token whitespace. -/
def jsonSkipWs (l : List Char) : List Char :=
  l.dropWhile isJsonWs

/-- The simple JSON string escapes (strict `json.loads` rejects others;
`\uXXXX` is outside this model's fragment). -/
def escChar (c : Char) : Option Char :=
  if c = '"' then some '"'
  else if c = '\\' then some '\\'
  else if c = '/' then some '/'
  else if c = 'b' then some '\x08'
  else if c = 'f' then some '\x0c'
  else if c = 'n' then some '\n'
  else if c = 'r' then some '\r'
  else if c = 't' then some '\t'
  else none

/-- Parse a JSON string body after the opening quote; strict mode rejects
raw control characters.  Returns the decoded characters and the rest. -/
def parseStringBody : List Char → Option (List Char × List Char)
  | [] => none
  | '"' :: rest => some ([], rest)
  | '\\' :: rest =>
    match rest with
    | [] => none
    | c :: rest2 =>
      match escChar c with
      | some e => (parseStringBody rest2).map (fun p => (e :: p.1, p.2))
      | none => none
  | c :: rest =>
    if c.toNat < 32 then none
    else (parseStringBody rest).map (fun p => (c :: p.1, p.2))

/-- Digit test. -/
def isDigitCh (c : Char) : Bool :=
  '0' ≤ c ∧ c ≤ '9'

/-- Numeric value of a digit string. -/
def digitsVal (ds : List Char) : Nat :=
  ds.foldl (fun acc c => acc * 10 + (c.toNat - 48)) 0

/-- Parse a JSON integer token: optional minus, then `0` or a nonzero-led
digit string (leading zeros are rejected, as `json.loads` does). -/
def parseIntTok (l : List Char) : Option (Int × List Char) :=
  let (sign, l1) : Int × List Char :=
    match l with
    | '-' :: rest => (-1, rest)
    | _ => (1, l)
  let ds := l1.takeWhile isDigitCh
  let rest := l1.dropWhile isDigitCh
  match ds with
  | [] => none
  | '0' :: _ :: _ => none
  | _ => some (sign * (digitsVal ds : Int), rest)

mutual

/-- Parse one JSON value (fuel-structural; `fuel = length + 1` suffices
since every recursive hop consumes at least one character). -/
def parseValue : Nat → List Char → Option (Json × List Char)
  | 0, _ => none
  | fuel + 1, l =>
    match l with
    | '\x7b' :: rest =>
      match jsonSkipWs rest with
      | '\x7d' :: r2 => some (.obj [], r2)
      | r => parseMembers fuel r []
    | '[' :: rest =>
      match jsonSkipWs rest with
      | ']' :: r2 => some (.arr [], r2)
      | r => parseElems fuel r []
    | '"' :: rest => (parseStringBody rest).map (fun p => (.str (String.mk p.1), p.2))
    | 't' :: 'r' :: 'u' :: 'e' :: rest => some (.bool true, rest)
    | 'f' :: 'a' :: 'l' :: 's' :: 'e' :: rest => some (.bool false, rest)
    | 'n' :: 'u' :: 'l' :: 'l' :: rest => some (.null, rest)
    | _ => (parseIntTok l).map (fun p => (.int p.1, p.2))

/-- Parse the remaining elements of a nonempty array. -/
def parseElems : Nat → List Char → List Json → Option (Json × List Char)
  | 0, _, _ => none
  | fuel + 1, l, acc =>
    match parseValue fuel l with
    | none => none
    | some (v, r) =>
      match jsonSkipWs r with
      | ',' :: r3 => parseElems fuel (jsonSkipWs r3) (acc ++ [v])
      | ']' :: r3 => some (.arr (acc ++ [v]), r3)
      | _ => none

/-- Parse the remaining members of a nonempty object. -/
def parseMembers : Nat → List Char → List (String × Json) →
    Option (Json × List Char)
  | 0, _, _ => none
  | fuel + 1, l, acc =>
    match l with
    | '"' :: rest =>
      match parseStringBody rest with
      | none => none
      | some (k, r) =>
        match jsonSkipWs r with
        | ':' :: r3 =>
          match parseValue fuel (jsonSkipWs r3) with
          | none => none
          | some (v, r4) =>
            match jsonSkipWs r4 with
            | ',' :: r6 =>
              parseMembers fuel (jsonSkipWs r6) (dictSet acc (String.mk k) v)
            | '\x7d' :: r6 => some (.obj (dictSet acc (String.mk k) v), r6)
            | _ => none
        | _ => none
    | _ => none

end

/-- Model of `json.loads` on a character list: leading whitespace, one
value, trailing whitespace, end of input. -/
def pyJsonLoadsL (l : List Char) : Option Json :=
  match parseValue (l.length + 1) (jsonSkipWs l) with
  | some (v, rest) => if (jsonSkipWs rest).isEmpty then some v else none
  | none => none

/-- Model of `json.loads` on a string. -/
def pyJsonLoads (s : String) : Option Json :=
  pyJsonLoadsL s.data

/-! Model of `GeminiService._parse_response` (`app/services/gemini.py`). -/

/-- Model of `GeminiServiceError`: the exception type of the Gemini service,
carrying a message and an error code. -/
structure GeminiServiceError where
  message : String
  error_code : String
deriving DecidableEq, Repr

/-- The exact error `_parse_response` raises when every repair attempt is
exhausted. -/
def jsonParseError : GeminiServiceError :=
  { message := "Failed to parse recipe data from AI."
    error_code := "JSON_PARSE_ERROR" }

/-- Count occurrences of a character, `text.count(c)`. -/
def countChar (c : Char) (l : List Char) : Nat :=
  (l.filter (fun a => a = c)).length

/-- Python `text.endswith(s)` on character lists. -/
def endsWithL (l s : List Char) : Bool :=
  l.drop (l.length - s.length) = s

/-- Python `text.rstrip(chars)`: drop trailing characters from the set. -/
def rstripSet (l : List Char) (cs : List Char) : List Char :=
  (l.reverse.dropWhile (fun c => cs.contains c)).reverse

/-- The markdown-fence stripping step of `_parse_response`: drop a leading
` ```json ` or ` ``` ` and a trailing ` ``` `. -/
def stripFences (l : List Char) : List Char :=
  let l1 :=
    if l.take 7 = "```json".data then l.drop 7
    else if l.take 3 = "```".data then l.drop 3
    else l
  if endsWithL l1 "```".data then l1.take (l1.length - 3) else l1

/-- One left-to-right pass of `re.sub(r',(\s*[}\]])', r'\1', text)`: each
comma followed by optional whitespace and a closing bracket or brace is
deleted, scanning resuming after the consumed match (`re.sub` replaces
non-overlapping matches in a single pass).  Fuel-structural; the fuel
exceeds the input length so the base case is never reached. -/
def rtcGo : Nat → List Char → List Char
  | 0, l => l
  | _ + 1, [] => []
  | fuel + 1, c :: rest =>
    if c = ',' then
      match rest.dropWhile isPyWs with
      | d :: rest2 =>
        if d = '\x7d' ∨ d = ']' then rest.takeWhile isPyWs ++ d :: rtcGo fuel rest2
        else ',' :: rtcGo fuel rest
      | [] => ',' :: rtcGo fuel rest
    else c :: rtcGo fuel rest

/-- The trailing-comma removal step of `_parse_response`. -/
def removeTrailingCommas (l : List Char) : List Char :=
  rtcGo (l.length + 1) l

/-- Model of `text.replace('\\"', '')`: delete every (non-overlapping)
backslash-quote pair, left to right. -/
def removeEscQuotes : List Char → List Char
  | [] => []
  | '\\' :: '"' :: rest => removeEscQuotes rest
  | c :: rest => c :: removeEscQuotes rest

/-- Python `text.rstrip()` with no argument (whitespace). -/
def pyRstrip (l : List Char) : List Char :=
  (l.reverse.dropWhile isPyWs).reverse

/-- The bracket/brace-closing repair of `_parse_response`, applied when the
character counts show unclosed brackets or braces: possibly close an
unterminated string (odd count of unescaped quotes), strip trailing
`,\n\t ` characters, then append the missing `]`s and `}`s. -/
def closeBrackets (l : List Char) (openBrackets openBraces : Int) :
    List Char :=
  let temp := removeEscQuotes l
  let l1 :=
    if countChar '"' temp % 2 = 1 then
      let t := pyRstrip l
      if endsWithL t ['"'] then t else t ++ ['"']
    else l
  let l2 := rstripSet l1 [',', '\n', '\t', ' ']
  l2 ++ List.replicate openBrackets.toNat ']' ++
    List.replicate openBraces.toNat '\x7d'

/-- One candidate of the last-resort loop: truncate to `i` characters,
strip trailing `,\n\t `, and close whatever brackets and braces the
truncated text leaves open. -/
def closeCandidate (text : List Char) (i : Nat) : List Char :=
  let p := rstripSet (text.take i) [',', '\n', '\t', ' ']
  let openB : Int := (countChar '\x7b' p : Int) - (countChar '\x7d' p : Int)
  let openBr : Int := (countChar '[' p : Int) - (countChar ']' p : Int)
  p ++ List.replicate openBr.toNat ']' ++ List.replicate openB.toNat '\x7d'

/-- The last-resort loop of `_parse_response`: for `i` from the full length
down to 1, try to parse the closed truncation, returning the first success. -/
def lastResort (text : List Char) : Nat → Option Json
  | 0 => none
  | i + 1 =>
    match pyJsonLoadsL (closeCandidate text (i + 1)) with
    | some v => some v
    | none => lastResort text i

/-- The parsing attempts of `_parse_response` on the repaired text: first a
direct `json.loads`, then the last-resort truncation loop. -/
def parseAttempt (text : List Char) : Option Json :=
  match pyJsonLoadsL text with
  | some v => some v
  | none => lastResort text text.length

/-- The text-repair phase of `_parse_response`: strip whitespace and
markdown fences, delete trailing commas in one pass, and close truncated
JSON when the character counts show unclosed brackets or braces. -/
def repairText (response_text : String) : List Char :=
  let text0 := pyStripL response_text.data
  let text1 := pyStripL (stripFences text0)
  let text2 := removeTrailingCommas text1
  let openBraces : Int :=
    (countChar '\x7b' text2 : Int) - (countChar '\x7d' text2 : Int)
  let openBrackets : Int :=
    (countChar '[' text2 : Int) - (countChar ']' text2 : Int)
  if openBrackets > 0 ∨ openBraces > 0 then
    closeBrackets text2 openBrackets openBraces
  else text2

/-- Wrap the outcome of the parsing attempts: a parsed value is returned,
exhaustion raises the fixed `jsonParseError`. -/
def responseOf (o : Option Json) : Except GeminiServiceError Json :=
  match o with
  | some v => .ok v
  | none => .error jsonParseError

/-- Model of `GeminiService._parse_response`: repair the text, parse it
(with the truncation fallback), and when nothing parses fail with
`jsonParseError`. -/
def parse_response (response_text : String) : Except GeminiServiceError Json :=
  responseOf (parseAttempt (repairText response_text))

/-! Definitions used to state the claims. -/

/-- Does the text contain a comma followed by optional whitespace and then
a closing `]` or brace?  (The pattern the trailing-comma repair targets.) -/
def hasDanglingComma : List Char → Bool
  | [] => false
  | c :: rest =>
    (c = ',' &&
      (match rest.dropWhile isPyWs with
       | d :: _ => d = '\x7d' ∨ d = ']'
       | [] => false)) || hasDanglingComma rest

/-- No comma is followed, after optional whitespace, by another comma
(the side condition under which a single substitution pass already removes
every dangling comma). -/
def noCommaWsComma : List Char → Bool
  | [] => true
  | c :: rest =>
    (!(c = ',') ||
      (match rest.dropWhile isPyWs with
       | d :: _ => !(d = ',')
       | [] => true)) && noCommaWsComma rest

/-- Does `l` start with `s`? -/
def startsWithL : List Char → List Char → Bool
  | _, [] => true
  | [], _ :: _ => false
  | a :: as, b :: bs => a = b && startsWithL as bs

/-- Does `s` occur contiguously inside `l`? -/
def containsSeq : List Char → List Char → Bool
  | [], s => s.isEmpty
  | l@(_ :: rest), s => startsWithL l s || containsSeq rest s

/-- Does `msg` contain some nonempty initial segment of `raw`, up to the
1000-character diagnostic bound?  (Formalizes carrying the raw text "or a
bounded prefix of it".) -/
def carriesBoundedStart (msg raw : List Char) : Bool :=
  (List.range (min raw.length 1000)).any
    (fun k => containsSeq msg (raw.take (k + 1)))

/-- The invariant tying `_cache` to `_access_order`: the dictionary's keys
are distinct (it is a `dict`), the recency list is duplicate-free, and the
two hold exactly the same keys. -/
def SyncKeys {α : Type} (c : List (String × CacheEntry α)) (o : List String) :
    Prop :=
  (keysOf c).Nodup ∧ o.Nodup ∧
    (∀ k ∈ keysOf c, k ∈ o) ∧ (∀ k ∈ o, k ∈ keysOf c)

instance {α : Type} (c : List (String × CacheEntry α)) (o : List String) :
    Decidable (SyncKeys c o) := by
  unfold SyncKeys
  infer_instance

/-- Structural well-formedness of an `InMemoryCache` state, true of every
state the Python object can reach. -/
def InMemoryCache.WF {α : Type} (s : InMemoryCache α) : Prop :=
  SyncKeys s.cache s.access_order

instance {α : Type} (s : InMemoryCache α) : Decidable s.WF := by
  unfold InMemoryCache.WF
  infer_instance

/-- Whether a decode result is a success. -/
def exceptIsOk : Except GeminiServiceError Json → Bool
  | .ok _ => true
  | .error _ => false

/-- The cache state of the C2 scenario: capacity 2, then
`set(a,1); set(b,2); get(a); set(c,3)` at clock 0. -/
def c2State : InMemoryCache Nat :=
  runOps Nat 2 3600
    [CacheOp.set "a" 1 none 0, CacheOp.set "b" 2 none 0,
     CacheOp.get "a" 0, CacheOp.set "c" 3 none 0]

/-! Theorems. -/

/-- Case analysis on the final step of `_parse_response`. -/
theorem responseOf_error (o : Option Json) (e : GeminiServiceError)
    (h : responseOf o = Except.error e) : e = jsonParseError := by
  cases o with
  | some v => exact absurd h (by simp [responseOf])
  | none =>
    unfold responseOf at h
    injection h with h'
    exact h'.symm

/-- Every error produced by `_parse_response` is the fixed
`jsonParseError` raised after all repair attempts fail. -/
theorem parse_error_fixed (t : String) (e : GeminiServiceError)
    (h : parse_response t = Except.error e) : e = jsonParseError := by
  unfold parse_response at h
  exact responseOf_error _ e h

/-- C2: eviction is strict LRU by last touch from get or set: with
capacity 2, after `set(a,1); set(b,2); get(a); set(c,3)`, `get(b)` is empty
(b was evicted) while `get(a)` and `get(c)` return their values. -/
theorem spec_C2 :
    (c2State.get "b" 0).1 = none ∧
    (((c2State.get "b" 0).2).get "a" 0).1 = some 1 ∧
    (((((c2State.get "b" 0).2).get "a" 0).2).get "c" 0).1 = some 3 := by
  decide

/-- C5: the truncated input recovers to the parse of
`{"a":1,"b":[1,2]}`, and whenever no repair candidate parses the decoder
fails with error code `JSON_PARSE_ERROR` rather than anything unstructured. -/
theorem spec_C5 :
    parse_response "\x7b\"a\":1,\"b\":[1,2," =
      Except.ok (Json.obj [("a", Json.int 1), ("b", Json.arr [Json.int 1, Json.int 2])]) ∧
    ∀ t e, parse_response t = Except.error e → e.error_code = "JSON_PARSE_ERROR" := by
  refine ⟨rfl, fun t e h => ?_⟩
  rw [parse_error_fixed t e h]
  rfl

/-- Witness for C5 at the unparseable input `%%`. -/
theorem spec_C5_witness : jsonParseError.error_code = "JSON_PARSE_ERROR" :=
  spec_C5.2 "%%" jsonParseError rfl

/-- C6 counterexample: on the unparseable input `ZZZZ` the decoder's error
is the fixed `jsonParseError`, whose message contains no nonempty initial
segment of the raw text: the error does not carry the raw text. -/
theorem spec_C6_cex :
    parse_response "ZZZZ" = Except.error jsonParseError ∧
    carriesBoundedStart jsonParseError.message.data "ZZZZ".data = false := by
  exact ⟨rfl, by decide⟩

/-- C6 as amended: the decode error raised when every repair attempt fails
carries the fixed message `Failed to parse recipe data from AI.` and error
code `JSON_PARSE_ERROR`; the raw text is logged, not attached to the error. -/
theorem spec_C6 (t : String) (e : GeminiServiceError)
    (h : parse_response t = Except.error e) :
    e.message = "Failed to parse recipe data from AI." ∧
    e.error_code = "JSON_PARSE_ERROR" := by
  rw [parse_error_fixed t e h]
  exact ⟨rfl, rfl⟩

/-- Witness for the amended C6 at the unparseable input `abc}`. -/
theorem spec_C6_witness :
    jsonParseError.message = "Failed to parse recipe data from AI." ∧
    jsonParseError.error_code = "JSON_PARSE_ERROR" :=
  spec_C6 "abc\x7d" jsonParseError rfl

/-- C1 counterexample: the text `"["` is syntactically valid JSON (the
string containing one bracket), yet the decoder returns no value at all:
the bracket-closing repair corrupts it and every candidate fails. -/
theorem spec_C1_cex :
    pyJsonLoads "\"[\"" = some (Json.str "[") ∧
    parse_response "\"[\"" = Except.error jsonParseError ∧
    exceptIsOk (parse_response "\"[\"") = false := by
  exact ⟨rfl, rfl, rfl⟩

/-- C3 counterexample: with `max_size = 0` a single `set` leaves one stored
entry, so the entry count exceeds `max_size` (the eviction loop stops once
the recency list is empty and the insertion then overshoots the bound). -/
theorem spec_C3_cex :
    ¬ (runOps Nat 0 3600 [CacheOp.set "a" 1 none 0]).cache.length ≤ 0 := by
  decide

/-- C7 counterexample: `re.sub` makes a single pass, so `[1,,]` becomes
`[1,]`, which still contains a comma directly before a closing bracket. -/
theorem spec_C7_cex :
    removeTrailingCommas ("[1,,]".data) = "[1,]".data ∧
    hasDanglingComma (removeTrailingCommas ("[1,,]".data)) = true := by
  decide

/-- Inserting into a sorted list is never empty. -/
theorem sortedInsert_ne_nil (x : String) (l : List String) :
    sortedInsert x l ≠ [] := by
  cases l with
  | nil => simp [sortedInsert]
  | cons y ys =>
    unfold sortedInsert
    split <;> simp

/-- The function `pySorted` returns the empty list only on the empty list. -/
theorem pySorted_eq_nil_iff (l : List String) : pySorted l = [] ↔ l = [] := by
  cases l with
  | nil => simp [pySorted]
  | cons x xs => simp [pySorted, sortedInsert_ne_nil]

/-- The joined restriction string only depends on the sorted list. -/
theorem dietaryStr_congr (r1 r2 : List String)
    (h : pySorted r1 = pySorted r2) :
    dietaryStr (some r1) = dietaryStr (some r2) := by
  by_cases h1 : r1 = []
  · have h2 : r2 = [] := by
      rw [← pySorted_eq_nil_iff, ← h, pySorted_eq_nil_iff]
      exact h1
    subst h1
    subst h2
    rfl
  · have h2 : r2 ≠ [] := by
      intro hc
      exact h1 (by rw [← pySorted_eq_nil_iff, h, pySorted_eq_nil_iff]; exact hc)
    simp only [dietaryStr, h]
    rw [if_neg (by simpa using h1), if_neg (by simpa using h2)]

/-- C4: the fingerprint is a pure function of the normalized inputs — any
two requests that agree after lowercasing and trimming the dish name and
sorting the restriction list get the identical cache key. -/
theorem spec_C4 (a b : String) (s : Int) (r1 r2 : List String)
    (hn : normalizeName a = normalizeName b)
    (hr : pySorted r1 = pySorted r2) :
    generate_recipe_key a s (some r1) = generate_recipe_key b s (some r2) := by
  unfold generate_recipe_key recipeKeyString
  rw [hn, dietaryStr_congr r1 r2 hr]

/-- Witness for C4: the spec's example pair of equivalent requests. -/
theorem spec_C4_witness :
    generate_recipe_key "Pad Thai" 2 (some ["Vegan", "Gluten-Free"]) =
    generate_recipe_key " pad thai " 2 (some ["Gluten-Free", "Vegan"]) :=
  spec_C4 "Pad Thai" " pad thai " 2 ["Vegan", "Gluten-Free"]
    ["Gluten-Free", "Vegan"] (by decide) (by decide)

/-- C10: the joiner between restrictions equals the field delimiter, so the
distinct restriction lists `["b_c"]` and `["b","c"]` collide for every dish
name and servings count. -/
theorem spec_C10 (n : String) (s : Int) :
    generate_recipe_key n s (some ["b_c"]) =
    generate_recipe_key n s (some ["b", "c"]) := by
  unfold generate_recipe_key recipeKeyString
  rw [show dietaryStr (some ["b_c"]) = dietaryStr (some ["b", "c"]) by decide]

/-- C1 as amended: on already-trimmed valid JSON with no markdown fences at
either end, on which the trailing-comma substitution is a no-op and whose
raw bracket and brace character counts balance, the decoder returns exactly
the standard parse; the counterexample shows the repairs can destroy valid
JSON outside these conditions. -/
theorem spec_C1 (t : String) (v : Json)
    (hstrip : pyStripL t.data = t.data)
    (hloads : pyJsonLoads t = some v)
    (hfence1 : ¬ t.data.take 3 = "```".data)
    (hfence2 : endsWithL t.data "```".data = false)
    (hcomma : removeTrailingCommas t.data = t.data)
    (hbrace : countChar '\x7b' t.data = countChar '\x7d' t.data)
    (hbracket : countChar '[' t.data = countChar ']' t.data) :
    parse_response t = Except.ok v := by
  have hfence7 : ¬ t.data.take 7 = "```json".data := by
    intro h7
    apply hfence1
    have h3 : (t.data.take 7).take 3 = ("```json".data).take 3 := by rw [h7]
    simpa [List.take_take] using h3
  have hfences : stripFences t.data = t.data := by
    unfold stripFences
    rw [if_neg hfence7, if_neg hfence1]
    simp [hfence2]
  have hrepair : repairText t = t.data := by
    unfold repairText
    simp only [hstrip, hfences, hcomma, hbrace, hbracket]
    simp
  unfold parse_response parseAttempt
  rw [hrepair]
  have : pyJsonLoadsL t.data = some v := hloads
  rw [this]
  rfl

/-- Witness for the amended C1 at the well-formed input `{"a":1}`. -/
theorem spec_C1_witness :
    parse_response "\x7b\"a\":1\x7d" = Except.ok (Json.obj [("a", Json.int 1)]) :=
  spec_C1 "\x7b\"a\":1\x7d" (Json.obj [("a", Json.int 1)])
    rfl rfl (by decide) rfl rfl rfl rfl

/-! Dictionary lemmas. -/

theorem dictSet_cons_self {α : Type} (k : String) (w v : CacheEntry α)
    (rest : List (String × CacheEntry α)) :
    dictSet ((k, w) :: rest) k v = (k, v) :: rest := by
  simp [dictSet]

theorem dictSet_cons_ne {α : Type} {k' k : String} (h : ¬ k' = k)
    (w v : CacheEntry α) (rest : List (String × CacheEntry α)) :
    dictSet ((k', w) :: rest) k v = (k', w) :: dictSet rest k v := by
  simp [dictSet, h]

theorem dictGet_isSome_iff {α : Type} (d : List (String × CacheEntry α))
    (k : String) : (dictGet d k).isSome = true ↔ k ∈ keysOf d := by
  induction d with
  | nil => simp [dictGet, keysOf]
  | cons p rest ih =>
    obtain ⟨k', v⟩ := p
    by_cases h : k' = k
    · subst h
      simp [dictGet, keysOf]
    · have h' : ¬ k = k' := fun hc => h hc.symm
      simp [dictGet, keysOf, h, h', ih]

theorem dictGet_dictSet_self {α : Type} (d : List (String × CacheEntry α))
    (k : String) (v : CacheEntry α) :
    dictGet (dictSet d k v) k = some v := by
  induction d with
  | nil => simp [dictSet, dictGet]
  | cons p rest ih =>
    obtain ⟨k', w⟩ := p
    by_cases h : k' = k
    · subst h
      simp [dictSet, dictGet]
    · simp [dictSet, dictGet, h, ih]

theorem mem_keysOf_dictDel {α : Type} {d : List (String × CacheEntry α)}
    {x a : String} : a ∈ keysOf (dictDel d x) ↔ a ∈ keysOf d ∧ a ≠ x := by
  induction d with
  | nil => simp [dictDel, keysOf]
  | cons p rest ih =>
    obtain ⟨k', v⟩ := p
    by_cases h : k' = x
    · subst h
      simp only [dictDel, if_pos rfl, keysOf, List.map_cons, List.mem_cons]
      rw [show keysOf (dictDel rest k') = List.map Prod.fst (dictDel rest k') from rfl] at ih
      constructor
      · intro ha
        have := ih.1 ha
        exact ⟨Or.inr this.1, this.2⟩
      · rintro ⟨rfl | ha, hne⟩
        · exact absurd rfl hne
        · exact ih.2 ⟨ha, hne⟩
    · simp only [dictDel, if_neg h, keysOf, List.map_cons, List.mem_cons]
      rw [show keysOf (dictDel rest x) = List.map Prod.fst (dictDel rest x) from rfl] at ih
      constructor
      · rintro (rfl | ha)
        · exact ⟨Or.inl rfl, h⟩
        · have := ih.1 ha
          exact ⟨Or.inr this.1, this.2⟩
      · rintro ⟨rfl | ha, hne⟩
        · exact Or.inl rfl
        · exact Or.inr (ih.2 ⟨ha, hne⟩)

theorem dictDel_not_mem {α : Type} {d : List (String × CacheEntry α)}
    {x : String} (h : ¬ x ∈ keysOf d) : dictDel d x = d := by
  induction d with
  | nil => rfl
  | cons p rest ih =>
    obtain ⟨k', v⟩ := p
    simp only [keysOf, List.map_cons, List.mem_cons] at h
    push_neg at h
    simp only [dictDel, if_neg (fun hc : k' = x => h.1 hc.symm)]
    rw [ih (by simpa [keysOf] using h.2)]

theorem length_dictDel_of_mem {α : Type} {d : List (String × CacheEntry α)}
    {x : String} (hnd : (keysOf d).Nodup) (hx : x ∈ keysOf d) :
    (dictDel d x).length + 1 = d.length := by
  induction d with
  | nil => simp [keysOf] at hx
  | cons p rest ih =>
    obtain ⟨k', v⟩ := p
    simp only [keysOf, List.map_cons, List.nodup_cons] at hnd
    by_cases hk : k' = x
    · subst hk
      simp only [dictDel, if_pos rfl]
      rw [dictDel_not_mem hnd.1]
      simp
    · simp only [keysOf, List.map_cons, List.mem_cons] at hx
      rcases hx with hx | hx
      · exact absurd hx.symm hk
      · simp only [dictDel, if_neg hk, List.length_cons]
        have := ih hnd.2 hx
        omega

theorem nodup_keysOf_dictDel {α : Type} {d : List (String × CacheEntry α)}
    {x : String} (h : (keysOf d).Nodup) : (keysOf (dictDel d x)).Nodup := by
  induction d with
  | nil => simp [dictDel, keysOf]
  | cons p rest ih =>
    obtain ⟨k', v⟩ := p
    simp only [keysOf, List.map_cons, List.nodup_cons] at h
    by_cases hk : k' = x
    · simp only [dictDel, if_pos hk]
      exact ih h.2
    · simp only [dictDel, if_neg hk, keysOf, List.map_cons, List.nodup_cons]
      refine ⟨fun hc => h.1 (mem_keysOf_dictDel.1 hc).1, ih h.2⟩

theorem mem_keysOf_dictSet {α : Type} {d : List (String × CacheEntry α)}
    {k a : String} (v : CacheEntry α) :
    a ∈ keysOf (dictSet d k v) ↔ a ∈ keysOf d ∨ a = k := by
  induction d with
  | nil => simp [dictSet, keysOf]
  | cons p rest ih =>
    obtain ⟨k', w⟩ := p
    by_cases h : k' = k
    · subst h
      simp [dictSet, keysOf]
      tauto
    · simp only [dictSet, if_neg h, keysOf, List.map_cons, List.mem_cons] at ih ⊢
      tauto

theorem keysOf_dictSet_of_mem {α : Type} {d : List (String × CacheEntry α)}
    {k : String} (v : CacheEntry α) (h : k ∈ keysOf d) :
    keysOf (dictSet d k v) = keysOf d := by
  induction d with
  | nil => simp [keysOf] at h
  | cons p rest ih =>
    obtain ⟨k', w⟩ := p
    by_cases hk : k' = k
    · subst hk
      simp [dictSet, keysOf]
    · simp only [keysOf, List.map_cons, List.mem_cons] at h
      rcases h with h | h
      · exact absurd h.symm hk
      · rw [dictSet_cons_ne hk]
        have := ih h
        simp only [keysOf, List.map_cons] at this ⊢
        rw [this]

theorem length_dictSet_of_mem {α : Type} {d : List (String × CacheEntry α)}
    {k : String} (v : CacheEntry α) (h : k ∈ keysOf d) :
    (dictSet d k v).length = d.length := by
  induction d with
  | nil => simp [keysOf] at h
  | cons p rest ih =>
    obtain ⟨k', w⟩ := p
    by_cases hk : k' = k
    · subst hk
      simp [dictSet]
    · simp only [keysOf, List.map_cons, List.mem_cons] at h
      rcases h with h | h
      · exact absurd h.symm hk
      · simp only [dictSet, if_neg hk, List.length_cons, ih h]

theorem length_dictSet_not_mem {α : Type} {d : List (String × CacheEntry α)}
    {k : String} (v : CacheEntry α) (h : ¬ k ∈ keysOf d) :
    (dictSet d k v).length = d.length + 1 := by
  induction d with
  | nil => simp [dictSet]
  | cons p rest ih =>
    obtain ⟨k', w⟩ := p
    simp only [keysOf, List.map_cons, List.mem_cons] at h
    push_neg at h
    simp only [dictSet, if_neg (fun hc : k' = k => h.1 hc.symm), List.length_cons]
    rw [ih (by simpa [keysOf] using h.2)]

theorem nodup_keysOf_dictSet {α : Type} {d : List (String × CacheEntry α)}
    {k : String} (v : CacheEntry α) (h : (keysOf d).Nodup) :
    (keysOf (dictSet d k v)).Nodup := by
  induction d with
  | nil => simp [dictSet, keysOf]
  | cons p rest ih =>
    obtain ⟨k', w⟩ := p
    simp only [keysOf, List.map_cons, List.nodup_cons] at h
    by_cases hk : k' = k
    · subst hk
      rw [dictSet_cons_self]
      simp only [keysOf, List.map_cons, List.nodup_cons]
      exact h
    · rw [dictSet_cons_ne hk]
      simp only [keysOf, List.map_cons, List.nodup_cons]
      refine ⟨fun hc => ?_, ih h.2⟩
      rcases (mem_keysOf_dictSet v).1 hc with hc | hc
      · exact h.1 hc
      · exact hk hc

theorem pair_dictSet_eq {α : Type} {d : List (String × CacheEntry α)}
    {k : String} {v : CacheEntry α} (hnd : (keysOf d).Nodup) :
    ∀ p ∈ dictSet d k v, p.1 = k → p.2 = v := by
  induction d with
  | nil =>
    intro p hp
    simp only [dictSet, List.mem_singleton] at hp
    subst hp
    intro _
    rfl
  | cons q rest ih =>
    obtain ⟨k', w⟩ := q
    simp only [keysOf, List.map_cons, List.nodup_cons] at hnd
    by_cases hk : k' = k
    · subst hk
      intro p hp hpk
      rw [dictSet_cons_self] at hp
      simp only [List.mem_cons] at hp
      rcases hp with rfl | hp
      · rfl
      · exact absurd (hpk ▸ (List.mem_map_of_mem Prod.fst hp)) hnd.1
    · intro p hp hpk
      rw [dictSet_cons_ne hk] at hp
      simp only [List.mem_cons] at hp
      rcases hp with rfl | hp
      · exact absurd hpk hk
      · exact ih hnd.2 p hp hpk

theorem length_dictDel_le {α : Type} (d : List (String × CacheEntry α))
    (x : String) : (dictDel d x).length ≤ d.length := by
  induction d with
  | nil => simp [dictDel]
  | cons p rest ih =>
    obtain ⟨k', v⟩ := p
    by_cases hk : k' = x
    · simp only [dictDel, if_pos hk, List.length_cons]
      omega
    · simp only [dictDel, if_neg hk, List.length_cons]
      omega

/-! Preservation of the cache invariant. -/

theorem SyncKeys_remove {α : Type} {c : List (String × CacheEntry α)}
    {o : List String} (x : String) (h : SyncKeys c o) :
    SyncKeys (dictDel c x) (o.erase x) := by
  obtain ⟨h1, h2, h3, h4⟩ := h
  refine ⟨nodup_keysOf_dictDel h1, h2.erase x, ?_, ?_⟩
  · intro k hk
    obtain ⟨hk1, hk2⟩ := mem_keysOf_dictDel.1 hk
    exact (h2.mem_erase_iff).2 ⟨hk2, h3 k hk1⟩
  · intro k hk
    obtain ⟨hk2, hk1⟩ := (h2.mem_erase_iff).1 hk
    exact mem_keysOf_dictDel.2 ⟨h4 k hk1, hk2⟩

theorem SyncKeys_front {α : Type} {c : List (String × CacheEntry α)}
    {o : List String} {k : String} (hk : k ∈ keysOf c) (h : SyncKeys c o) :
    SyncKeys c (o.erase k ++ [k]) := by
  obtain ⟨h1, h2, h3, h4⟩ := h
  refine ⟨h1, ?_, ?_, ?_⟩
  · rw [List.nodup_append]
    refine ⟨h2.erase k, List.nodup_singleton k, ?_⟩
    intro a ha hb
    simp only [List.mem_singleton] at hb
    subst hb
    exact ((h2.mem_erase_iff).1 ha).1 rfl
  · intro a ha
    by_cases hak : a = k
    · subst hak
      simp
    · exact List.mem_append_left _ ((h2.mem_erase_iff).2 ⟨hak, h3 a ha⟩)
  · intro a ha
    rcases List.mem_append.1 ha with ha | ha
    · exact h4 a ((h2.mem_erase_iff).1 ha).2
    · simp only [List.mem_singleton] at ha
      subst ha
      exact hk

theorem SyncKeys_insert {α : Type} {c : List (String × CacheEntry α)}
    {o : List String} (k : String) (e : CacheEntry α) (h : SyncKeys c o) :
    SyncKeys (dictSet c k e) (o.erase k ++ [k]) := by
  obtain ⟨h1, h2, h3, h4⟩ := h
  refine ⟨nodup_keysOf_dictSet e h1, ?_, ?_, ?_⟩
  · rw [List.nodup_append]
    refine ⟨h2.erase k, List.nodup_singleton k, ?_⟩
    intro a ha hb
    simp only [List.mem_singleton] at hb
    subst hb
    exact ((h2.mem_erase_iff).1 ha).1 rfl
  · intro a ha
    rcases (mem_keysOf_dictSet e).1 ha with ha | rfl
    · by_cases hak : a = k
      · subst hak
        simp
      · exact List.mem_append_left _ ((h2.mem_erase_iff).2 ⟨hak, h3 a ha⟩)
    · simp
  · intro a ha
    rcases List.mem_append.1 ha with ha | ha
    · exact (mem_keysOf_dictSet e).2 (Or.inl (h4 a ((h2.mem_erase_iff).1 ha).2))
    · simp only [List.mem_singleton] at ha
      subst ha
      exact (mem_keysOf_dictSet e).2 (Or.inr rfl)

theorem SyncKeys_foldl_remove {α : Type} (ks : List String) :
    ∀ (c : List (String × CacheEntry α)) (o : List String), SyncKeys c o →
      SyncKeys (ks.foldl dictDel c) (ks.foldl List.erase o) ∧
      (ks.foldl dictDel c).length ≤ c.length := by
  induction ks with
  | nil => exact fun c o h => ⟨h, le_refl _⟩
  | cons x rest ih =>
    intro c o h
    simp only [List.foldl_cons]
    obtain ⟨hs, hl⟩ := ih (dictDel c x) (o.erase x) (SyncKeys_remove x h)
    exact ⟨hs, le_trans hl (length_dictDel_le c x)⟩

theorem evictLoop_inv {α : Type} (m : Nat) (o : List String) :
    ∀ c : List (String × CacheEntry α), SyncKeys c o →
      SyncKeys (evictLoop m c o).1 (evictLoop m c o).2 ∧
      (evictLoop m c o).1.length ≤ c.length ∧
      ((evictLoop m c o).1.length < m ∨ (evictLoop m c o).2 = []) := by
  induction o with
  | nil =>
    intro c h
    simp only [evictLoop]
    exact ⟨⟨h.1, List.nodup_nil, h.2.2.1, by simp⟩, le_refl _, Or.inr (by trivial)⟩
  | cons k rest ih =>
    intro c h
    by_cases hm : m ≤ c.length
    · simp only [evictLoop, if_pos hm]
      have hrem : SyncKeys (dictDel c k) rest := by
        have := SyncKeys_remove k h
        rwa [List.erase_cons_head] at this
      obtain ⟨hs, hl, hp⟩ := ih (dictDel c k) hrem
      exact ⟨hs, le_trans hl (length_dictDel_le c k), hp⟩
    · simp only [evictLoop, if_neg hm]
      exact ⟨h, le_refl _, Or.inl (by omega)⟩

theorem set_eq {α : Type} (s : InMemoryCache α) (key : String) (value : α)
    (ttl : Option Int) (now : Int) (c' : List (String × CacheEntry α))
    (o' : List String)
    (hsplit : evictLoop s.max_size s.cache s.access_order = (c', o')) :
    s.set key value ttl now =
      { s with
        cache := dictSet c' key
          (CacheEntry.make value (some (ttl.getD s.default_ttl)) now)
        access_order := o'.erase key ++ [key] } := by
  unfold InMemoryCache.set
  rw [hsplit]

theorem set_inv {α : Type} (s : InMemoryCache α) (key : String) (value : α)
    (ttl : Option Int) (now : Int) (hm : 1 ≤ s.max_size) (h : s.WF)
    (_hl : s.cache.length ≤ s.max_size) :
    (s.set key value ttl now).WF ∧
    (s.set key value ttl now).cache.length ≤ s.max_size := by
  have hE := evictLoop_inv s.max_size s.access_order s.cache h
  rcases hsplit : evictLoop s.max_size s.cache s.access_order with ⟨c', o'⟩
  rw [hsplit] at hE
  obtain ⟨hs, hlen, hstop⟩ := hE
  replace hs : SyncKeys c' o' := hs
  replace hlen : c'.length ≤ s.cache.length := hlen
  replace hstop : c'.length < s.max_size ∨ o' = [] := hstop
  rw [set_eq s key value ttl now c' o' hsplit]
  constructor
  · exact SyncKeys_insert key _ hs
  · simp only
    rcases hstop with hlt | hnil
    · by_cases hk : key ∈ keysOf c'
      · rw [length_dictSet_of_mem _ hk]
        omega
      · rw [length_dictSet_not_mem _ hk]
        omega
    · subst hnil
      have hknil : keysOf c' = [] := by
        rcases hkn : keysOf c' with _ | ⟨a, rest⟩
        · rfl
        · have : a ∈ keysOf c' := by rw [hkn]; exact List.mem_cons_self a rest
          exact absurd (hs.2.2.1 a this) (List.not_mem_nil a)
      have hcnil : c' = [] := by
        unfold keysOf at hknil
        exact List.map_eq_nil_iff.1 hknil
      subst hcnil
      simpa [dictSet] using hm

theorem apply_inv {α : Type} (s : InMemoryCache α) (op : CacheOp α)
    (hm : 1 ≤ s.max_size) (h : s.WF) (hl : s.cache.length ≤ s.max_size) :
    (CacheOp.apply s op).WF ∧
    (CacheOp.apply s op).cache.length ≤ (CacheOp.apply s op).max_size ∧
    (CacheOp.apply s op).max_size = s.max_size := by
  cases op with
  | get key now =>
    simp only [CacheOp.apply, InMemoryCache.get]
    cases hd : dictGet s.cache key with
    | none => simp only [hd]; exact ⟨h, hl, by trivial⟩
    | some e =>
      simp only [hd]
      split
      · exact ⟨SyncKeys_remove key h,
          le_trans (length_dictDel_le s.cache key) hl, by trivial⟩
      · have hmem : key ∈ keysOf s.cache :=
          (dictGet_isSome_iff s.cache key).1 (by rw [hd]; rfl)
        exact ⟨SyncKeys_front hmem h, hl, by trivial⟩
  | set key value ttl now =>
    obtain ⟨hw, hlen⟩ := set_inv s key value ttl now hm h hl
    have hms : (s.set key value ttl now).max_size = s.max_size := by
      rcases hsplit : evictLoop s.max_size s.cache s.access_order with ⟨c', o'⟩
      rw [set_eq s key value ttl now c' o' hsplit]
    refine ⟨hw, ?_, hms⟩
    show (s.set key value ttl now).cache.length ≤ (s.set key value ttl now).max_size
    rw [hms]
    exact hlen
  | del key =>
    simp only [CacheOp.apply, InMemoryCache.del]
    split
    · exact ⟨SyncKeys_remove key h,
        le_trans (length_dictDel_le s.cache key) hl, by trivial⟩
    · exact ⟨h, hl, by trivial⟩
  | clear =>
    refine ⟨⟨List.nodup_nil, List.nodup_nil, ?_, ?_⟩, ?_, rfl⟩
    · intro k hk
      simp [CacheOp.apply, InMemoryCache.clearAll, keysOf] at hk
    · intro k hk
      simp [CacheOp.apply, InMemoryCache.clearAll] at hk
    · show (0 : Nat) ≤ s.max_size
      omega
  | size now =>
    simp only [CacheOp.apply, InMemoryCache.size, InMemoryCache.purge]
    obtain ⟨hs, hlen⟩ := SyncKeys_foldl_remove
      ((s.cache.filter (fun p => p.2.isExpired now)).map Prod.fst)
      s.cache s.access_order h
    exact ⟨hs, le_trans hlen hl, by trivial⟩

theorem foldl_apply_inv {α : Type} (ops : List (CacheOp α)) :
    ∀ s : InMemoryCache α, 1 ≤ s.max_size → s.WF →
      s.cache.length ≤ s.max_size →
      (ops.foldl CacheOp.apply s).WF ∧
      (ops.foldl CacheOp.apply s).cache.length ≤
        (ops.foldl CacheOp.apply s).max_size ∧
      (ops.foldl CacheOp.apply s).max_size = s.max_size := by
  induction ops with
  | nil => exact fun s _ h hl => ⟨h, hl, rfl⟩
  | cons op rest ih =>
    intro s hm h hl
    simp only [List.foldl_cons]
    obtain ⟨h1, h2, h3⟩ := apply_inv s op hm h hl
    obtain ⟨g1, g2, g3⟩ := ih (CacheOp.apply s op) (by omega) h1 h2
    exact ⟨g1, g2, by omega⟩

/-- C3 as amended: for every capacity of at least one and every finite
sequence of `get`/`set`/`delete`/`clear`/`size` operations, the number of
stored entries is at most `max_size` after each operation completes (a
sequence ending at any operation is itself a sequence, so the bound holds
at every intermediate point).  The counterexample shows the bound fails
for `max_size = 0`. -/
theorem spec_C3 (max : Nat) (dttl : Int) (ops : List (CacheOp Nat))
    (hm : 1 ≤ max) : (runOps Nat max dttl ops).cache.length ≤ max := by
  unfold runOps
  have hinit : (InMemoryCache.init Nat max dttl).WF :=
    ⟨List.nodup_nil, List.nodup_nil, by simp [keysOf, InMemoryCache.init],
     by simp [InMemoryCache.init]⟩
  obtain ⟨_, h2, h3⟩ :=
    foldl_apply_inv ops (InMemoryCache.init Nat max dttl) hm hinit
      (by simp [InMemoryCache.init])
  rw [h3] at h2
  exact h2

/-- Witness for the amended C3: capacity 1 with two insertions stays at one
entry. -/
theorem spec_C3_witness :
    (runOps Nat 1 0 [CacheOp.set "a" 1 none 0, CacheOp.set "b" 2 none 0]).cache.length ≤ 1 :=
  spec_C3 1 0 [CacheOp.set "a" 1 none 0, CacheOp.set "b" 2 none 0] (by decide)

theorem mem_foldl_dictDel {α : Type} (ks : List String) (k : String) :
    ∀ c : List (String × CacheEntry α), k ∈ keysOf c →
      (∀ x ∈ ks, ¬ x = k) → k ∈ keysOf (ks.foldl dictDel c) := by
  induction ks with
  | nil => exact fun c hk _ => hk
  | cons x rest ih =>
    intro c hk hx
    simp only [List.foldl_cons]
    refine ih (dictDel c x) ?_ (fun y hy => hx y (List.mem_cons_of_mem x hy))
    exact mem_keysOf_dictDel.2
      ⟨hk, fun hc => hx x (List.mem_cons_self x rest) (hc ▸ rfl)⟩

/-- C8: setting with `ttl = 0` (or `ttl = None` when `default_ttl = 0`)
stores an entry whose `expires_at` is `None`; such an entry never expires:
a `get` at any later instant returns the value and the purge pass of
`size` keeps it, no matter how far the clock advances. -/
theorem spec_C8 (s : InMemoryCache Nat) (k : String) (v : Nat)
    (ttl : Option Int) (now now' : Int) (hWF : s.WF)
    (h0 : ttl = some 0 ∨ (ttl = none ∧ s.default_ttl = 0)) :
    dictGet (s.set k v ttl now).cache k =
      some { value := v, created_at := now, expires_at := none } ∧
    ((s.set k v ttl now).get k now').1 = some v ∧
    k ∈ keysOf (((s.set k v ttl now).purge now').cache) := by
  have heff : ttl.getD s.default_ttl = 0 := by
    rcases h0 with rfl | ⟨rfl, hd⟩
    · rfl
    · simpa using hd
  have hent : CacheEntry.make v (some (ttl.getD s.default_ttl)) now =
      { value := v, created_at := now, expires_at := none } := by
    rw [heff]
    rfl
  rcases hsplit : evictLoop s.max_size s.cache s.access_order with ⟨c', o'⟩
  have hE := evictLoop_inv s.max_size s.access_order s.cache hWF
  rw [hsplit] at hE
  have hnd : (keysOf c').Nodup := hE.1.1
  rw [set_eq s k v ttl now c' o' hsplit, hent]
  have hget : dictGet (dictSet c' k
      { value := v, created_at := now, expires_at := none }) k =
      some { value := v, created_at := now, expires_at := none } :=
    dictGet_dictSet_self c' k _
  refine ⟨hget, ?_, ?_⟩
  · simp only [InMemoryCache.get, hget]
    have : CacheEntry.isExpired
        { value := v, created_at := now, expires_at := none } now' = false := rfl
    simp [this]
  · simp only [InMemoryCache.purge]
    apply mem_foldl_dictDel
    · exact (mem_keysOf_dictSet _).2 (Or.inr rfl)
    · intro x hx hxk
      subst hxk
      simp only [List.mem_map, List.mem_filter] at hx
      obtain ⟨p, ⟨hp, hpe⟩, hp1⟩ := hx
      have := pair_dictSet_eq hnd p hp hp1
      rw [this] at hpe
      simp [CacheEntry.isExpired] at hpe

/-- Witness for C8: a fresh cache, `set("x", 7, ttl=0)` at clock 0, read
back at clock 99999999. -/
theorem spec_C8_witness :
    dictGet ((InMemoryCache.init Nat 5 3600).set "x" 7 (some 0) 0).cache "x" =
      some { value := 7, created_at := 0, expires_at := none } ∧
    (((InMemoryCache.init Nat 5 3600).set "x" 7 (some 0) 0).get "x" 99999999).1 = some 7 ∧
    "x" ∈ keysOf ((((InMemoryCache.init Nat 5 3600).set "x" 7 (some 0) 0).purge 99999999).cache) :=
  spec_C8 (InMemoryCache.init Nat 5 3600) "x" 7 (some 0) 0 99999999
    (by decide) (Or.inl rfl)

theorem evictLoop_stop {α : Type} (m : Nat)
    (c : List (String × CacheEntry α)) (o : List String)
    (h : c.length < m) : evictLoop m c o = (c, o) := by
  cases o with
  | nil => simp [evictLoop]
  | cons x rest => simp [evictLoop, Nat.not_le.2 h]

/-- C9: when the cache is exactly full, a `set` on a key that is already
present (and is not itself the least recently used) still evicts the head
of the recency list before the overwrite: the old LRU key disappears, the
overwritten key stays, and the entry count drops below capacity. -/
theorem spec_C9 (s : InMemoryCache Nat) (k : String) (v : Nat)
    (ttl : Option Int) (now : Int) (h : String) (rest : List String)
    (hWF : s.WF) (ho : s.access_order = h :: rest)
    (hfull : s.cache.length = s.max_size)
    (hk : k ∈ keysOf s.cache) (hkh : ¬ k = h) :
    ¬ h ∈ keysOf (s.set k v ttl now).cache ∧
    k ∈ keysOf (s.set k v ttl now).cache ∧
    (s.set k v ttl now).cache.length + 1 = s.max_size := by
  have hm1 : 1 ≤ s.cache.length := by
    rcases hc : s.cache with _ | ⟨p, tail⟩
    · rw [hc] at hk
      simp [keysOf] at hk
    · simp
  have hhmem : h ∈ keysOf s.cache :=
    hWF.2.2.2 h (by rw [ho]; exact List.mem_cons_self h rest)
  have hdellen : (dictDel s.cache h).length + 1 = s.cache.length :=
    length_dictDel_of_mem hWF.1 hhmem
  have hsplit : evictLoop s.max_size s.cache s.access_order =
      (dictDel s.cache h, rest) := by
    rw [ho]
    simp only [evictLoop, if_pos (le_of_eq hfull.symm)]
    exact evictLoop_stop s.max_size (dictDel s.cache h) rest (by omega)
  rw [set_eq s k v ttl now _ _ hsplit]
  have hkdel : k ∈ keysOf (dictDel s.cache h) :=
    mem_keysOf_dictDel.2 ⟨hk, hkh⟩
  refine ⟨?_, ?_, ?_⟩
  · intro hc
    rcases (mem_keysOf_dictSet _).1 hc with hc | hc
    · exact (mem_keysOf_dictDel.1 hc).2 rfl
    · exact hkh hc.symm
  · exact (mem_keysOf_dictSet _).2 (Or.inr rfl)
  · show (dictSet (dictDel s.cache h) k _).length + 1 = s.max_size
    rw [length_dictSet_of_mem _ hkdel]
    omega

/-! The single substitution pass: supporting lemmas for C7. -/

theorem length_dropWhile_le' (p : Char → Bool) (l : List Char) :
    (l.dropWhile p).length ≤ l.length := by
  induction l with
  | nil => simp
  | cons c rest ih =>
    rw [List.dropWhile_cons]
    split
    · simp only [List.length_cons]
      omega
    · simp

theorem dropWhile_head_false {p : Char → Bool} {l rest2 : List Char}
    {d : Char} (h : l.dropWhile p = d :: rest2) : p d = false := by
  induction l with
  | nil => simp at h
  | cons c rest ih =>
    rw [List.dropWhile_cons] at h
    split at h
    · exact ih h
    · injection h with h1 _
      subst h1
      simpa using (by assumption : ¬ p c = true)

theorem dropWhile_append_all {p : Char → Bool} (a t : List Char)
    (ha : ∀ c ∈ a, p c = true) :
    (a ++ t).dropWhile p = t.dropWhile p := by
  induction a with
  | nil => rfl
  | cons c rest ih =>
    rw [List.cons_append, List.dropWhile_cons, if_pos (ha c (List.mem_cons_self c rest))]
    exact ih (fun x hx => ha x (List.mem_cons_of_mem c hx))

theorem rtcGo_fuel : ∀ (n : Nat) (l : List Char), l.length ≤ n →
    ∀ f1 f2, l.length < f1 → l.length < f2 → rtcGo f1 l = rtcGo f2 l := by
  intro n
  induction n with
  | zero =>
    intro l hl f1 f2 h1 h2
    have hnil : l = [] := List.length_eq_zero.1 (by omega)
    subst hnil
    cases f1 with
    | zero => omega
    | succ g1 =>
      cases f2 with
      | zero => omega
      | succ g2 => rfl
  | succ n ih =>
    intro l hl f1 f2 h1 h2
    cases l with
    | nil =>
      cases f1 with
      | zero => omega
      | succ g1 =>
        cases f2 with
        | zero => omega
        | succ g2 => rfl
    | cons c rest =>
      cases f1 with
      | zero => omega
      | succ g1 =>
        cases f2 with
        | zero => omega
        | succ g2 =>
          simp only [List.length_cons] at hl h1 h2
          have hrest : rest.length ≤ n := by omega
          simp only [rtcGo]
          by_cases hc : c = ','
          · rw [if_pos hc, if_pos hc]
            cases hdw : rest.dropWhile isPyWs with
            | nil =>
              simp only [hdw]
              rw [ih rest hrest g1 g2 (by omega) (by omega)]
            | cons d rest2 =>
              have hr2 : rest2.length < rest.length := by
                have := length_dropWhile_le' isPyWs rest
                rw [hdw] at this
                simp only [List.length_cons] at this
                omega
              simp only [hdw]
              by_cases hd : d = '\x7d' ∨ d = ']'
              · rw [if_pos hd, if_pos hd,
                  ih rest2 (by omega) g1 g2 (by omega) (by omega)]
              · rw [if_neg hd, if_neg hd,
                  ih rest hrest g1 g2 (by omega) (by omega)]
          · rw [if_neg hc, if_neg hc]
            rw [ih rest hrest g1 g2 (by omega) (by omega)]

theorem rtc_cons_nc (c : Char) (l : List Char) (hc : ¬ c = ',') :
    removeTrailingCommas (c :: l) = c :: removeTrailingCommas l := by
  unfold removeTrailingCommas
  simp only [List.length_cons, rtcGo]
  rw [if_neg hc]

theorem rtc_comma_nil (rest : List Char)
    (hdw : rest.dropWhile isPyWs = []) :
    removeTrailingCommas (',' :: rest) = ',' :: removeTrailingCommas rest := by
  unfold removeTrailingCommas
  simp only [List.length_cons, rtcGo, if_pos rfl, hdw]
  simp

theorem rtc_comma_noclose (rest rest2 : List Char) (d : Char)
    (hdw : rest.dropWhile isPyWs = d :: rest2)
    (hd : ¬ (d = '\x7d' ∨ d = ']')) :
    removeTrailingCommas (',' :: rest) = ',' :: removeTrailingCommas rest := by
  unfold removeTrailingCommas
  simp only [List.length_cons, rtcGo, if_pos rfl, hdw]
  rw [if_neg hd]
  simp

theorem rtc_comma_closer (rest rest2 : List Char) (d : Char)
    (hdw : rest.dropWhile isPyWs = d :: rest2)
    (hd : d = '\x7d' ∨ d = ']') :
    removeTrailingCommas (',' :: rest) =
      rest.takeWhile isPyWs ++ d :: removeTrailingCommas rest2 := by
  have hr2 : rest2.length < rest.length := by
    have := length_dropWhile_le' isPyWs rest
    rw [hdw] at this
    simp only [List.length_cons] at this
    omega
  unfold removeTrailingCommas
  simp only [List.length_cons, rtcGo, if_pos rfl, hdw]
  rw [if_pos hd]
  rw [rtcGo_fuel rest2.length rest2 (le_refl _) (rest.length + 1)
    (rest2.length + 1) (by omega) (by omega)]
  simp

theorem rtc_passthrough (a t : List Char) (ha : ∀ c ∈ a, ¬ c = ',') :
    removeTrailingCommas (a ++ t) = a ++ removeTrailingCommas t := by
  induction a with
  | nil => rfl
  | cons c rest ih =>
    rw [List.cons_append, rtc_cons_nc c (rest ++ t) (ha c (List.mem_cons_self c rest)),
      ih (fun x hx => ha x (List.mem_cons_of_mem c hx)), List.cons_append]

theorem dangling_append_nc (a t : List Char) (ha : ∀ c ∈ a, ¬ c = ',') :
    hasDanglingComma (a ++ t) = hasDanglingComma t := by
  induction a with
  | nil => rfl
  | cons c rest ih =>
    rw [List.cons_append]
    simp only [hasDanglingComma]
    have hc : ¬ c = ',' := ha c (List.mem_cons_self c rest)
    simp only [decide_eq_false hc, Bool.false_and, Bool.false_or]
    exact ih (fun x hx => ha x (List.mem_cons_of_mem c hx))

theorem dangling_nc (l : List Char) (hl : ∀ c ∈ l, ¬ c = ',') :
    hasDanglingComma l = false := by
  have := dangling_append_nc l [] hl
  simpa using this

theorem ncwc_cons {c : Char} {l : List Char}
    (h : noCommaWsComma (c :: l) = true) : noCommaWsComma l = true := by
  simp only [noCommaWsComma, Bool.and_eq_true] at h
  exact h.2

theorem ncwc_append {a b : List Char}
    (h : noCommaWsComma (a ++ b) = true) : noCommaWsComma b = true := by
  induction a with
  | nil => exact h
  | cons c rest ih => exact ih (ncwc_cons (by rwa [List.cons_append] at h))

theorem nc_of_ws (c : Char) (h : isPyWs c = true) : ¬ c = ',' := by
  intro hc
  subst hc
  simp [isPyWs] at h

/-- The central property behind the amended C7: one pass of the
substitution leaves no dangling comma whenever no two commas are separated
only by whitespace. -/
theorem rtc_no_dangling : ∀ (n : Nat) (l : List Char), l.length ≤ n →
    noCommaWsComma l = true →
    hasDanglingComma (removeTrailingCommas l) = false := by
  intro n
  induction n with
  | zero =>
    intro l hl _
    have hnil : l = [] := List.length_eq_zero.1 (by omega)
    subst hnil
    rfl
  | succ n ih =>
    intro l hl hn
    cases l with
    | nil => rfl
    | cons c rest =>
      simp only [List.length_cons] at hl
      by_cases hc : c = ','
      · subst hc
        have hnrest : noCommaWsComma rest = true := ncwc_cons hn
        cases hdw : rest.dropWhile isPyWs with
        | nil =>
          rw [rtc_comma_nil rest hdw]
          have hws : ∀ x ∈ rest, isPyWs x = true :=
            List.dropWhile_eq_nil_iff.1 hdw
          have hnc : ∀ x ∈ rest, ¬ x = ',' :=
            fun x hx => nc_of_ws x (hws x hx)
          have hrtc : removeTrailingCommas rest = rest := by
            have h0 : removeTrailingCommas ([] : List Char) = [] := rfl
            have hp := rtc_passthrough rest [] hnc
            simp only [h0, List.append_nil] at hp
            exact hp
          rw [hrtc]
          simp only [hasDanglingComma, hdw]
          rw [dangling_nc rest hnc]
          simp
        | cons d rest2 =>
          have hr2 : rest2.length < rest.length := by
            have := length_dropWhile_le' isPyWs rest
            rw [hdw] at this
            simp only [List.length_cons] at this
            omega
          have hsplitr : rest.takeWhile isPyWs ++ (d :: rest2) = rest := by
            rw [← hdw]
            exact List.takeWhile_append_dropWhile isPyWs rest
          have hnrest2 : noCommaWsComma rest2 = true := by
            have h1 : noCommaWsComma (d :: rest2) = true := by
              rw [← hsplitr] at hnrest
              exact ncwc_append hnrest
            exact ncwc_cons h1
          by_cases hd : d = '\x7d' ∨ d = ']'
          · rw [rtc_comma_closer rest rest2 d hdw hd]
            have hdnc : ¬ d = ',' := by
              rcases hd with rfl | rfl <;> decide
            rw [dangling_append_nc _ _
              (fun x hx => nc_of_ws x (List.mem_takeWhile_imp hx))]
            simp only [hasDanglingComma, decide_eq_false hdnc, Bool.false_and,
              Bool.false_or]
            exact ih rest2 (by omega) hnrest2
          · have hdncomma : ¬ d = ',' := by
              simp only [noCommaWsComma, hdw, Bool.and_eq_true, Bool.or_eq_true] at hn
              rcases hn.1 with h1 | h1
              · simp at h1
              · simpa using h1
            rw [rtc_comma_noclose rest rest2 d hdw hd]
            simp only [hasDanglingComma]
            have hrtcrest : removeTrailingCommas rest =
                rest.takeWhile isPyWs ++ d :: removeTrailingCommas rest2 := by
              conv_lhs => rw [← hsplitr]
              rw [rtc_passthrough _ _
                (fun x hx => nc_of_ws x (List.mem_takeWhile_imp hx))]
              rw [rtc_cons_nc d rest2 hdncomma]
            have hdrop : (removeTrailingCommas rest).dropWhile isPyWs =
                d :: removeTrailingCommas rest2 := by
              rw [hrtcrest]
              rw [dropWhile_append_all _ _
                (fun x hx => List.mem_takeWhile_imp hx)]
              rw [List.dropWhile_cons, if_neg (by
                have := dropWhile_head_false hdw
                simp [this])]
            rw [hdrop]
            have hdclose : decide (d = '\x7d' ∨ d = ']') = false :=
              decide_eq_false hd
            have hrest_nd : hasDanglingComma (removeTrailingCommas rest) = false :=
              ih rest (by omega) hnrest
            simp [hdclose, hrest_nd]
      · rw [rtc_cons_nc c rest hc]
        simp only [hasDanglingComma, decide_eq_false hc, Bool.false_and,
          Bool.false_or]
        exact ih rest (by omega) (ncwc_cons hn)

/-- C7 as amended: the substitution is a single left-to-right pass; it
deletes every comma directly (after optional whitespace) before a closing
bracket or brace, and when the input has no two commas separated only by
whitespace the pass already leaves no dangling comma.  The counterexample
shows a second dangling comma exposed by a deletion survives the pass. -/
theorem spec_C7 (l : List Char) (h : noCommaWsComma l = true) :
    hasDanglingComma (removeTrailingCommas l) = false :=
  rtc_no_dangling l.length l (le_refl _) h

/-- Witness for the amended C7 at `[1, 2,]`. -/
theorem spec_C7_witness :
    hasDanglingComma (removeTrailingCommas ("[1, 2,]".data)) = false :=
  spec_C7 ("[1, 2,]".data) (by decide)

/-- Witness for C9: capacity 2, `set(a,1); set(b,2)`, then overwriting `b`
evicts `a` even though `b` was already present. -/
theorem spec_C9_witness :
    ¬ "a" ∈ keysOf ((runOps Nat 2 3600 [CacheOp.set "a" 1 none 0,
        CacheOp.set "b" 2 none 0]).set "b" 9 none 1).cache ∧
    "b" ∈ keysOf ((runOps Nat 2 3600 [CacheOp.set "a" 1 none 0,
        CacheOp.set "b" 2 none 0]).set "b" 9 none 1).cache ∧
    ((runOps Nat 2 3600 [CacheOp.set "a" 1 none 0,
        CacheOp.set "b" 2 none 0]).set "b" 9 none 1).cache.length + 1 = 2 :=
  spec_C9 (runOps Nat 2 3600 [CacheOp.set "a" 1 none 0,
      CacheOp.set "b" 2 none 0]) "b" 9 none 1 "a" ["b"]
    (by decide) (by decide) (by decide) (by decide) (by decide)

end IngredientsPrediction
